import Mathlib

/-! note, a line-oriented note-taking CLI.

Shallow embedding of `src/main.c`, `src/git.c` and `src/utils.c`.

Bytes are natural numbers (`10` is the newline, `0` is NUL).  A stream
(standard input, the standard output of a command) is the list of bytes
still to be read from it, a file is the list of bytes it holds, and a C
string held in a buffer is the run of bytes before the buffer's first NUL.

Assumptions on the C library, stated once:
* `fopen("tmp/test", "a+")` succeeds (the directory exists), a missing file
  counts as the empty file, and every write lands at the end of the file;
* `getline` on a null line pointer allocates its buffer, whatever the size
  it is given; on a pointer that is neither null nor a buffer obtained from
  `malloc` its behaviour is undefined, and a run that reaches such a call has
  no result (`none`);
* `popen` succeeds; `printf` renders a null `%s` argument by a fixed marker,
  a parameter of the model.

`read_command_stdout` declares `line` and `len` without initialising them, so
the values `getline` finds there are whatever the stack holds: they are part
of the environment of the run.
-/

namespace Note

/-- ASCII bytes of a string literal of the source. -/
def bytes (s : String) : List Nat := s.toList.map Char.toNat

/-- The newline byte. -/
abbrev NL : Nat := 10

/-- The NUL byte. -/
abbrev NUL : Nat := 0

/-! ## libc -/

/-- The bytes `getline` consumes from a non-empty stream, up to and
including the first newline (or up to end of input), and what is left. -/
def takeLine : List Nat → List Nat × List Nat
  | [] => ([], [])
  | b :: bs =>
    if b = NL then ([NL], bs)
    else ((b :: (takeLine bs).1), (takeLine bs).2)

/-- Result of `getline(&line, &len, stream)`: the returned count, the
buffer `line` (the bytes read followed by the terminating NUL), and the rest
of the stream. -/
structure GetLine where
  read : Int
  line : List Nat
  rest : List Nat
deriving DecidableEq, Repr

/-- `getline`: `-1` at end of input, else the line with its length. -/
def getline (stream : List Nat) : GetLine :=
  match stream with
  | [] => ⟨-1, [NUL], []⟩
  | _ :: _ =>
    ⟨((takeLine stream).1.length : Int), (takeLine stream).1 ++ [NUL], (takeLine stream).2⟩

/-- The C string held in a buffer: the bytes before its first NUL. -/
def cstr (buf : List Nat) : List Nat := buf.takeWhile (fun b => b ≠ NUL)

/-- `fputs(s, f)`: appends the C string `s` to the file. -/
def fputs (s : List Nat) (file : List Nat) : List Nat := file ++ cstr s

/-- `printf(pre "%s" post, s)` for a non-null `s`. -/
def printf_s (pre s post : List Nat) (out : List Nat) : List Nat :=
  out ++ pre ++ cstr s ++ post

/-! ## main.c -/

/-- What a run can see and change: standard input still unread, the
contents of `tmp/test`, and the bytes written to standard output. -/
structure World where
  stdin : List Nat
  notes : List Nat
  stdout : List Nat
deriving DecidableEq, Repr

/-- The `while` loop of `read_stdin`; `none` when the fuel runs out. -/
def read_stdin_loop : Nat → World → Option World
  | 0, _ => none
  | fuel + 1, w =>
    let g := getline w.stdin
    if g.read > 1 then
      read_stdin_loop fuel
        ⟨g.rest, fputs g.line w.notes, printf_s (bytes "Took note: ") g.line [] w.stdout⟩
    else
      some ⟨g.rest, w.notes, w.stdout⟩

/-- `read_stdin`: the return value and the world it leaves.  Each pass of
the loop consumes at least two bytes, so `stdin.length + 1` passes are
enough. -/
def read_stdin (w : World) : Option (Int × World) :=
  (read_stdin_loop (w.stdin.length + 1) w).map (fun w1 => (0, w1))

/-! ## The environment of the process -/

/-- A value an uninitialised `char *` can hold: the null pointer, or a
value that points to no buffer obtained from `malloc`. -/
inductive LinePtr where
  | null
  | wild
deriving DecidableEq, Repr

/-- What the stack holds in the slots of the locals `line` and `len` of
`read_command_stdout` when the function is entered. -/
structure Uninit where
  line : LinePtr
  len : Nat
deriving DecidableEq, Repr

/-- `getline(&line, &len, stream)` on a line pointer that was not set by
an earlier call: a null pointer makes `getline` allocate the buffer (the size
is ignored); on any other value the behaviour is undefined. -/
def getline_at (line : LinePtr) (_len : Nat) (stream : List Nat) : Option GetLine :=
  match line with
  | LinePtr.null => some (getline stream)
  | LinePtr.wild => none

/-- The external collaborators.  `system cmd` is the value `system(3)`
returns for the command line, zero exactly when the command exits with
status 0; `popen cmd` is what the command writes to its standard output;
`stack cmd` is what the uninitialised locals of `read_command_stdout` hold
in the call that runs `cmd`.  The queries are read-only, so the environment
does not change. -/
structure Env where
  system_status : String → Int
  popen_stdout : String → List Nat
  stack : String → Uninit

/-! ## utils.c -/

/-- `read_command_stdout`: the returned pointer (`none` for NULL, else the
C string it points to) and the log of commands run, extended; no result when
the call of `getline` is undefined. -/
def read_command_stdout (env : Env) (command : String) (log : List String) :
    Option (Option (List Nat) × List String) :=
  let log1 := log ++ [command]
  match getline_at (env.stack command).line (env.stack command).len
      (env.popen_stdout command) with
  | none => none
  | some g =>
    if g.read ≤ 0 then some (none, log1)
    else
      let last := (g.read - 1).toNat
      let line := if g.line.getD last NUL = NL then g.line.set last NUL else g.line
      some (some (cstr line), log1)

/-! ## git.c -/

/-- Command line of `not_git_repo`. -/
def cmd_inside_work_tree : String := "git rev-parse --is-inside-work-tree > /dev/null 2>&1"

/-- Command line of `git_repo_name`. -/
def cmd_repo_name : String := "basename $(git rev-parse --show-toplevel 2>/dev/null)"

/-- Command line of `git_branch_name`. -/
def cmd_branch_name : String := "git branch --show-current 2>/dev/null"

/-- `not_git_repo`: the value of `system` for the inside-work-tree check. -/
def not_git_repo (env : Env) (log : List String) : Int × List String :=
  (env.system_status cmd_inside_work_tree, log ++ [cmd_inside_work_tree])

/-- `git_repo_name`. -/
def git_repo_name (env : Env) (log : List String) :
    Option (Option (List Nat) × List String) :=
  read_command_stdout env cmd_repo_name log

/-- `git_branch_name`. -/
def git_branch_name (env : Env) (log : List String) :
    Option (Option (List Nat) × List String) :=
  read_command_stdout env cmd_branch_name log

/-- `get_git_repo_name`. -/
def get_git_repo_name (env : Env) (log : List String) :
    Option (Option (List Nat) × List String) :=
  if (not_git_repo env log).1 ≠ 0 then some (none, (not_git_repo env log).2)
  else git_repo_name env (not_git_repo env log).2

/-- `get_git_branch_name`. -/
def get_git_branch_name (env : Env) (log : List String) :
    Option (Option (List Nat) × List String) :=
  if (not_git_repo env log).1 ≠ 0 then some (none, (not_git_repo env log).2)
  else git_branch_name env (not_git_repo env log).2

/-! ## main -/

/-- What `printf` writes for a `%s` argument: the C string, or the marker
`nullMarker` for a null pointer. -/
def render (nullMarker : List Nat) : Option (List Nat) → List Nat
  | none => nullMarker
  | some s => s

/-- The usage banner printed by `main`. -/
def banner : List Nat :=
  bytes "Write your notes below. Each line will be saved as a separate note. An empty line will exit.\n"

/-- Result of a run of `main`. -/
structure Run where
  ret : Int
  world : World
  log : List String
deriving DecidableEq, Repr

/-- `main`. -/
def main (env : Env) (nullMarker : List Nat) (w : World) (log : List String) : Option Run :=
  match get_git_repo_name env log with
  | none => none
  | some repo_name =>
    match get_git_branch_name env repo_name.2 with
    | none => none
    | some branch_name =>
      let out1 := w.stdout ++ bytes "Repo: " ++ render nullMarker repo_name.1 ++ bytes "\n"
      let out2 := out1 ++ bytes "Branch: " ++ render nullMarker branch_name.1 ++ bytes "\n"
      let out3 := out2 ++ banner
      match read_stdin ⟨w.stdin, w.notes, out3⟩ with
      | none => none
      | some (_, w1) =>
        some ⟨0, ⟨w1.stdin, w1.notes, w1.stdout ++ bytes "Done.\n"⟩, branch_name.2⟩

/-! ## The shell command of `git_repo_name`

`basename $(git rev-parse --show-toplevel 2>/dev/null)` is run by `/bin/sh`.
The command substitution is not quoted, so the shell drops the trailing
newlines of git's output and splits what is left into fields at blanks, tabs
and newlines; `basename` gets the fields as its operands.  (Pathname expansion
of the fields is left out: the paths used below have no pattern character.) -/

/-- Field separators of the default `IFS`. -/
def isIFS (b : Nat) : Bool := b = 32 || b = 9 || b = 10

/-- Command substitution drops the trailing newlines of the output. -/
def dropTrailingNewlines (s : List Nat) : List Nat :=
  (s.reverse.dropWhile (fun b => b = NL)).reverse

/-- Field splitting at `IFS` white space. -/
def fields : List Nat → List (List Nat)
  | [] => []
  | b :: bs =>
    if isIFS b then fields bs
    else
      match bs with
      | [] => [[b]]
      | c :: _ =>
        if isIFS c then [b] :: fields bs
        else
          match fields bs with
          | [] => [[b]]
          | f :: fs => (b :: f) :: fs

/-- The final component of a path: trailing slashes dropped, then what
follows the last slash (a path of slashes only gives one slash). -/
def finalSegment (path : List Nat) : List Nat :=
  let p := path.reverse.dropWhile (fun b => b = 47)
  if path = [] then []
  else if p = [] then [47]
  else (p.takeWhile (fun b => b ≠ 47)).reverse

/-- Standard output of `basename operands...`: one operand prints its
final component, a second operand is a suffix removed from it (when it is a
proper suffix), and no operand or more than two print nothing on standard
output (the error goes to standard error). -/
def basename_stdout : List (List Nat) → List Nat
  | [path] => finalSegment path ++ [NL]
  | [path, suffix] =>
    let name := finalSegment path
    if suffix ≠ name ∧ suffix <:+ name then name.take (name.length - suffix.length) ++ [NL]
    else name ++ [NL]
  | _ => []

/-- Standard output of the shell command of `git_repo_name`, given what
`git rev-parse --show-toplevel` prints. -/
def repo_name_command_stdout (toplevel_stdout : List Nat) : List Nat :=
  basename_stdout (fields (dropTrailingNewlines toplevel_stdout))

/-- An environment inside a repository whose top-level directory is
`toplevel`, on branch `branch`, where the uninitialised locals of
`read_command_stdout` hold `u`. -/
def repoEnv (toplevel branch : List Nat) (u : Uninit) : Env where
  system_status := fun _ => 0
  popen_stdout := fun cmd =>
    if cmd = cmd_repo_name then repo_name_command_stdout (toplevel ++ [NL])
    else if cmd = cmd_branch_name then branch ++ [NL]
    else []
  stack := fun _ => u

/-- An environment outside any repository: the check exits with status
128 and the queries print nothing on standard output. -/
def noRepoEnv (u : Uninit) : Env where
  system_status := fun _ => 128 * 256
  popen_stdout := fun _ => []
  stack := fun _ => u

/-! ## Lines of a byte sequence -/

/-- The lines of a byte sequence, each with its terminator: what
successive calls of `getline` return until end of input. -/
def splitLines : List Nat → List (List Nat)
  | [] => []
  | b :: bs =>
    if b = NL then [NL] :: splitLines bs
    else
      match splitLines bs with
      | [] => [[b]]
      | l :: ls => (b :: l) :: ls

/-- Number of lines of a file: its newline-terminated segments, plus a
last non-empty segment that has no terminator. -/
def lineCount (file : List Nat) : Nat := (splitLines file).length

/-- The lines the capture loop accepts: those before the first line of
length at most 1. -/
def captured (stdin : List Nat) : List (List Nat) :=
  (splitLines stdin).takeWhile (fun l => decide (1 < l.length))

/-- The bytes stored for an accepted line: the line as a C string. -/
def stored (line : List Nat) : List Nat := cstr line

/-- The confirmation printed for an accepted line. -/
def confirmation (line : List Nat) : List Nat := bytes "Took note: " ++ cstr line

/-- A line without its terminating newline. -/
def chomp (line : List Nat) : List Nat :=
  if line.getLast? = some NL then line.dropLast else line

/-- The `Repo:` line of `main` for the value `repo` of `repo_name`. -/
def repoLine (nullMarker : List Nat) (repo : Option (List Nat)) : List Nat :=
  bytes "Repo: " ++ render nullMarker repo ++ bytes "\n"

/-- The `Branch:` line of `main` for the value `branch` of `branch_name`. -/
def branchLine (nullMarker : List Nat) (branch : Option (List Nat)) : List Nat :=
  bytes "Branch: " ++ render nullMarker branch ++ bytes "\n"

/-- What `main` prints after the `Branch:` line. -/
def afterBranch (stdin : List Nat) : List Nat :=
  banner ++ ((captured stdin).map confirmation).flatten ++ bytes "Done.\n"

/-! ## Lemmas on `getline` and on lines -/

theorem takeLine_cons_ne (b : Nat) (bs : List Nat) (hb : b ≠ NL) :
    takeLine (b :: bs) = (b :: (takeLine bs).1, (takeLine bs).2) := by
  simp [takeLine, hb]

theorem takeLine_append (s : List Nat) : (takeLine s).1 ++ (takeLine s).2 = s := by
  induction s with
  | nil => rfl
  | cons b bs ih =>
    by_cases hb : b = NL
    · simp [takeLine, hb]
    · simp [takeLine, hb, ih]

theorem takeLine_length_pos (b : Nat) (bs : List Nat) : 0 < (takeLine (b :: bs)).1.length := by
  by_cases hb : b = NL
  · simp [takeLine, hb]
  · simp [takeLine, hb]

theorem takeLine_rest_length (b : Nat) (bs : List Nat) :
    (takeLine (b :: bs)).2.length < (b :: bs).length := by
  have h1 := congrArg List.length (takeLine_append (b :: bs))
  have h2 := takeLine_length_pos b bs
  rw [List.length_append] at h1
  omega

theorem splitLines_cons (b : Nat) (bs : List Nat) :
    splitLines (b :: bs) = (takeLine (b :: bs)).1 :: splitLines (takeLine (b :: bs)).2 := by
  induction bs generalizing b with
  | nil =>
    by_cases hb : b = NL
    · simp [splitLines, takeLine, hb]
    · simp [splitLines, takeLine, hb]
  | cons c cs ih =>
    by_cases hb : b = NL
    · simp [splitLines, takeLine, hb]
    · rw [splitLines, if_neg hb, ih c]
      simp [takeLine, hb]

/-- A line returned by `getline` ends with a newline, or ends the input. -/
theorem takeLine_cases (b : Nat) (bs : List Nat) :
    (∃ l, (takeLine (b :: bs)).1 = l ++ [NL]) ∨ (takeLine (b :: bs)).2 = [] := by
  induction bs generalizing b with
  | nil =>
    by_cases hb : b = NL
    · simp [takeLine, hb]
    · simp [takeLine, hb]
  | cons c cs ih =>
    by_cases hb : b = NL
    · left; exact ⟨[], by simp [takeLine, hb]⟩
    · rcases ih c with ⟨l, hl⟩ | h
      · left; exact ⟨b :: l, by rw [takeLine_cons_ne b _ hb]; simp [hl]⟩
      · right; rw [takeLine_cons_ne b _ hb]; exact h

/-- A line returned by `getline` is one line. -/
theorem splitLines_takeLine (b : Nat) (bs : List Nat) :
    splitLines (takeLine (b :: bs)).1 = [(takeLine (b :: bs)).1] := by
  induction bs generalizing b with
  | nil =>
    by_cases hb : b = NL
    · simp [splitLines, takeLine, hb]
    · simp [splitLines, takeLine, hb]
  | cons c cs ih =>
    by_cases hb : b = NL
    · simp [splitLines, takeLine, hb]
    · have h := ih c
      rw [takeLine_cons_ne b _ hb]
      simp only []
      rw [splitLines, if_neg hb, h]

theorem splitLines_ne_nil (b : Nat) (bs : List Nat) : splitLines (b :: bs) ≠ [] := by
  rw [splitLines_cons]; simp

/-- Lines split independently after a newline. -/
theorem splitLines_append_newline (x y : List Nat) :
    splitLines (x ++ NL :: y) = splitLines (x ++ [NL]) ++ splitLines y := by
  induction x with
  | nil => simp [splitLines]
  | cons b bs ih =>
    by_cases hb : b = NL
    · simp [splitLines, hb, ih]
    · rw [List.cons_append, List.cons_append, splitLines, if_neg hb, splitLines, if_neg hb, ih]
      cases h : splitLines (bs ++ [NL]) with
      | nil =>
        cases bs with
        | nil => simp [splitLines] at h
        | cons c cs => exact absurd h (splitLines_ne_nil c _)
      | cons l ls => simp

/-- Appending to a file that is empty or ends with a newline adds the
lines of what is appended. -/
theorem splitLines_append (x y : List Nat) (hx : x = [] ∨ x.getLast? = some NL) :
    splitLines (x ++ y) = splitLines x ++ splitLines y := by
  rcases hx with rfl | hx
  · simp [splitLines]
  · obtain ⟨x0, rfl⟩ := List.getLast?_eq_some_iff.mp hx
    rw [List.append_assoc, List.singleton_append, splitLines_append_newline]

theorem flatten_splitLines (s : List Nat) : (splitLines s).flatten = s := by
  induction s with
  | nil => rfl
  | cons b bs ih =>
    by_cases hb : b = NL
    · simp [splitLines, hb, ih]
    · rw [splitLines, if_neg hb]
      cases h : splitLines bs with
      | nil => rw [h] at ih; simp at ih; simp [← ih]
      | cons l ls => rw [h] at ih; simp at ih; simp [← ih]

/-- A prefix of the lines of an input is the lines of its concatenation. -/
theorem splitLines_flatten_prefix (n : Nat) :
    ∀ (s : List Nat) (p : List (List Nat)), s.length ≤ n → p <+: splitLines s →
      splitLines p.flatten = p := by
  induction n with
  | zero =>
    intro s p hs hp
    have : s = [] := List.length_eq_zero.mp (Nat.le_zero.mp hs)
    subst this
    simp [splitLines] at hp
    subst hp
    rfl
  | succ n ih =>
    intro s p hs hp
    cases s with
    | nil =>
      simp [splitLines] at hp
      subst hp
      rfl
    | cons b bs =>
      cases p with
      | nil => rfl
      | cons l p1 =>
        rw [splitLines_cons] at hp
        obtain ⟨t, ht⟩ := hp
        simp only [List.cons_append, List.cons.injEq] at ht
        obtain ⟨hl, hp1⟩ := ht
        subst hl
        have hlen := takeLine_rest_length b bs
        have hpre : p1 <+: splitLines (takeLine (b :: bs)).2 := ⟨t, hp1⟩
        have ih1 := ih _ p1 (by simp only [List.length_cons] at hlen hs; omega) hpre
        rw [List.flatten_cons]
        rcases takeLine_cases b bs with ⟨l0, h0⟩ | h0
        · rw [h0, List.append_assoc, List.singleton_append, splitLines_append_newline,
            ih1, ← h0, splitLines_takeLine]
          rfl
        · rw [h0] at hpre
          simp [splitLines] at hpre
          subst hpre
          simp [splitLines_takeLine]

theorem splitLines_flatten_captured (s : List Nat) :
    splitLines (captured s).flatten = captured s :=
  splitLines_flatten_prefix s.length s _ (Nat.le_refl _) (List.takeWhile_prefix _)

/-! ## Lemmas on C strings -/

theorem cstr_append_nul (l : List Nat) : cstr (l ++ [NUL]) = cstr l := by
  induction l with
  | nil => simp [cstr]
  | cons b bs ih =>
    unfold cstr at ih ⊢
    by_cases hb : b = NUL
    · simp [List.takeWhile_cons, hb]
    · simp [List.takeWhile_cons, hb]
      simpa using ih

theorem cstr_eq_self (l : List Nat) (h : NUL ∉ l) : cstr l = l := by
  unfold cstr
  rw [List.takeWhile_eq_self_iff]
  intro x hx
  simp only [ne_eq, decide_eq_true_eq]
  rintro rfl
  exact h hx

theorem not_nul_of_mem_captured (s : List Nat) (h : NUL ∉ s) :
    ∀ l ∈ captured s, NUL ∉ l := by
  intro l hl h0
  apply h
  rw [← flatten_splitLines s]
  exact List.mem_flatten.mpr ⟨l, (List.takeWhile_prefix _).subset hl, h0⟩

theorem map_stored_captured (s : List Nat) (h : NUL ∉ s) :
    (captured s).map stored = captured s := by
  conv_rhs => rw [← List.map_id (captured s)]
  apply List.map_congr_left
  intro l hl
  exact cstr_eq_self l (not_nul_of_mem_captured s h l hl)

/-! ## The capture loop -/

theorem captured_nil : captured [] = [] := rfl

theorem captured_cons (b : Nat) (bs : List Nat) :
    captured (b :: bs) =
      if 1 < (takeLine (b :: bs)).1.length then
        (takeLine (b :: bs)).1 :: captured (takeLine (b :: bs)).2
      else [] := by
  unfold captured
  rw [splitLines_cons, List.takeWhile_cons]
  simp

/-- The loop stores and confirms the accepted lines, in order, and stops;
fuel above the length of the input is enough. -/
theorem read_stdin_loop_spec (fuel : Nat) :
    ∀ (stdin notes out : List Nat), stdin.length < fuel →
      ∃ rest, read_stdin_loop fuel ⟨stdin, notes, out⟩ =
        some ⟨rest, notes ++ ((captured stdin).map stored).flatten,
          out ++ ((captured stdin).map confirmation).flatten⟩ := by
  induction fuel with
  | zero => intro stdin notes out h; omega
  | succ fuel ih =>
    intro stdin notes out h
    cases stdin with
    | nil => exact ⟨[], by simp [read_stdin_loop, getline, captured_nil]⟩
    | cons b bs =>
      have hlen := takeLine_rest_length b bs
      by_cases hl : 1 < (takeLine (b :: bs)).1.length
      · obtain ⟨rest, hrest⟩ := ih (takeLine (b :: bs)).2
          (fputs ((takeLine (b :: bs)).1 ++ [NUL]) notes)
          (printf_s (bytes "Took note: ") ((takeLine (b :: bs)).1 ++ [NUL]) [] out)
          (by simp only [List.length_cons] at hlen h; omega)
        refine ⟨rest, ?_⟩
        have hg : (getline (b :: bs)).read > 1 := by
          simp only [getline]; exact_mod_cast hl
        rw [read_stdin_loop]
        simp only [hg, if_true]
        simp only [getline]
        rw [hrest, captured_cons, if_pos hl]
        simp [fputs, printf_s, stored, confirmation, cstr_append_nul, List.append_assoc]
      · refine ⟨(takeLine (b :: bs)).2, ?_⟩
        have hg : ¬ (getline (b :: bs)).read > 1 := by
          simp only [getline]; exact_mod_cast hl
        rw [read_stdin_loop]
        simp only [hg, if_false]
        rw [captured_cons, if_neg hl]
        simp [getline]

/-- A run of `read_stdin` returns 0, appends to the notes file what is
stored for the accepted lines and prints their confirmations. -/
theorem read_stdin_spec (stdin notes out : List Nat) :
    ∃ rest, read_stdin ⟨stdin, notes, out⟩ =
      some (0, ⟨rest, notes ++ ((captured stdin).map stored).flatten,
        out ++ ((captured stdin).map confirmation).flatten⟩) := by
  obtain ⟨rest, h⟩ := read_stdin_loop_spec (stdin.length + 1) stdin notes out (Nat.lt_succ_self _)
  exact ⟨rest, by simp [read_stdin, h]⟩

theorem length_of_mem_captured (s : List Nat) : ∀ l ∈ captured s, 1 < l.length := by
  intro l hl
  simpa using List.mem_takeWhile_imp hl

theorem captured_flatten_captured (s : List Nat) :
    captured (captured s).flatten = captured s := by
  unfold captured
  rw [show splitLines (List.takeWhile (fun l => decide (1 < l.length)) (splitLines s)).flatten
      = List.takeWhile (fun l => decide (1 < l.length)) (splitLines s) from
      splitLines_flatten_captured s]
  rw [List.takeWhile_eq_self_iff]
  intro l hl
  exact List.mem_takeWhile_imp (p := fun l : List Nat => decide (1 < l.length)) hl

/-- The input is the accepted lines followed by a rest at which `getline`
returns at most 1: a short line, or end of input. -/
theorem captured_append_rest (n : Nat) :
    ∀ s : List Nat, s.length ≤ n →
      ∃ rest, s = (captured s).flatten ++ rest ∧ (getline rest).read ≤ 1 := by
  induction n with
  | zero =>
    intro s hs
    have : s = [] := List.length_eq_zero.mp (Nat.le_zero.mp hs)
    subst this
    exact ⟨[], by simp [captured_nil], by simp [getline]⟩
  | succ n ih =>
    intro s hs
    cases s with
    | nil => exact ⟨[], by simp [captured_nil], by simp [getline]⟩
    | cons b bs =>
      have hlen := takeLine_rest_length b bs
      by_cases hl : 1 < (takeLine (b :: bs)).1.length
      · obtain ⟨rest, h1, h2⟩ := ih (takeLine (b :: bs)).2
          (by simp only [List.length_cons] at hlen hs; omega)
        refine ⟨rest, ?_, h2⟩
        rw [captured_cons, if_pos hl, List.flatten_cons, List.append_assoc, ← h1,
          takeLine_append]
      · refine ⟨b :: bs, by rw [captured_cons, if_neg hl]; rfl, ?_⟩
        simp only [getline]
        have : (takeLine (b :: bs)).1.length ≤ 1 := Nat.le_of_not_lt hl
        exact_mod_cast this

/-- Lines that follow the accepted lines start with a short line. -/
theorem splitLines_eq_captured_append (s : List Nat) :
    ∃ later, splitLines s = captured s ++ later ∧ ∀ l, later.head? = some l → l.length ≤ 1 := by
  refine ⟨(splitLines s).dropWhile (fun l => decide (1 < l.length)),
    (List.takeWhile_append_dropWhile _ _).symm, ?_⟩
  intro l hl
  have := List.head?_dropWhile_not (fun l : List Nat => decide (1 < l.length)) (splitLines s)
  rw [hl] at this
  simpa using this

theorem map_stored_eq_self (ls : List (List Nat)) (h : ∀ l ∈ ls, NUL ∉ l) :
    ls.map stored = ls := by
  conv_rhs => rw [← List.map_id ls]
  apply List.map_congr_left
  intro l hl
  exact cstr_eq_self l (h l hl)

/-- A file that is empty or ends with a newline stays so when lines that
end with a newline are appended. -/
theorem ends_with_newline_append (ls : List (List Nat)) :
    ∀ F : List Nat, (F = [] ∨ F.getLast? = some NL) → (∀ l ∈ ls, l.getLast? = some NL) →
      (F ++ ls.flatten = [] ∨ (F ++ ls.flatten).getLast? = some NL) := by
  induction ls with
  | nil => intro F hF _; simpa using hF
  | cons l ls ih =>
    intro F _ hls
    have hl : l.getLast? = some NL := hls l (List.mem_cons_self _ _)
    have h := ih (F ++ l) (Or.inr (by rw [List.getLast?_append, hl]; rfl))
      (fun m hm => hls m (List.mem_cons_of_mem _ hm))
    simpa [List.append_assoc] using h

/-- Lines of the notes file after a run on a file that was empty or ended
with a newline, when no accepted line has a NUL byte. -/
theorem splitLines_after_run (F stdin : List Nat) (hF : F = [] ∨ F.getLast? = some NL)
    (h0 : ∀ l ∈ captured stdin, NUL ∉ l) :
    splitLines (F ++ ((captured stdin).map stored).flatten) = splitLines F ++ captured stdin := by
  rw [map_stored_eq_self _ h0, splitLines_append F _ hF, splitLines_flatten_captured]

/-! ## The repository inspector -/

/-- The newline of a line is its last byte. -/
theorem takeLine_shape (b : Nat) (bs : List Nat) :
    (∃ l, (takeLine (b :: bs)).1 = l ++ [NL] ∧ NL ∉ l) ∨
      (NL ∉ (takeLine (b :: bs)).1 ∧ (takeLine (b :: bs)).2 = []) := by
  induction bs generalizing b with
  | nil =>
    by_cases hb : b = NL
    · left; exact ⟨[], by simp [takeLine, hb]⟩
    · right; simp [takeLine, hb]; exact fun h => hb h.symm
  | cons c cs ih =>
    by_cases hb : b = NL
    · left; exact ⟨[], by simp [takeLine, hb]⟩
    · rw [takeLine_cons_ne b _ hb]
      rcases ih c with ⟨l, hl, hn⟩ | ⟨hn, hr⟩
      · left
        refine ⟨b :: l, by simp [hl], ?_⟩
        simp only [List.mem_cons, not_or]
        exact ⟨fun h => hb h.symm, hn⟩
      · right
        refine ⟨?_, hr⟩
        simp only [List.mem_cons, not_or]
        exact ⟨fun h => hb h.symm, hn⟩

theorem chomp_concat (l : List Nat) (x : Nat) :
    chomp (l ++ [x]) = if x = NL then l else l ++ [x] := by
  unfold chomp
  by_cases hx : x = NL
  · simp [hx]
  · simp [hx]

theorem not_newline_mem_chomp_takeLine (b : Nat) (bs : List Nat) :
    NL ∉ chomp (takeLine (b :: bs)).1 := by
  rcases takeLine_shape b bs with ⟨l, hl, hn⟩ | ⟨hn, _⟩
  · rw [hl, chomp_concat]; simpa using hn
  · unfold chomp
    split
    · exact fun h => hn (List.dropLast_subset _ h)
    · exact hn

theorem getD_last_of_buffer (l : List Nat) (x y d : Nat) :
    (l ++ [x] ++ [y]).getD l.length d = x := by
  induction l with
  | nil => rfl
  | cons a l ih => simpa using ih

theorem set_last_of_buffer (l : List Nat) (x y z : Nat) :
    (l ++ [x] ++ [y]).set l.length z = l ++ [z] ++ [y] := by
  induction l with
  | nil => rfl
  | cons a l ih => simp

theorem read_command_stdout_wild (env : Env) (command : String) (log : List String)
    (hw : (env.stack command).line = LinePtr.wild) :
    read_command_stdout env command log = none := by
  simp [read_command_stdout, getline_at, hw]

theorem read_command_stdout_nil (env : Env) (command : String) (log : List String)
    (hu : (env.stack command).line = LinePtr.null)
    (h : env.popen_stdout command = []) :
    read_command_stdout env command log = some (none, log ++ [command]) := by
  simp [read_command_stdout, getline_at, hu, h, getline]

theorem read_command_stdout_cons (env : Env) (command : String) (log : List String)
    (hu : (env.stack command).line = LinePtr.null)
    (b : Nat) (bs : List Nat) (h : env.popen_stdout command = b :: bs) :
    read_command_stdout env command log =
      some (some (cstr (chomp (takeLine (b :: bs)).1)), log ++ [command]) := by
  have hpos := takeLine_length_pos b bs
  rcases List.eq_nil_or_concat (takeLine (b :: bs)).1 with hnil | ⟨l, x, hl⟩
  · rw [hnil] at hpos; simp at hpos
  · rw [List.concat_eq_append] at hl
    have hread : ¬ ((((takeLine (b :: bs)).1.length : Nat) : Int) ≤ 0) := by omega
    have hlast : ((((takeLine (b :: bs)).1.length : Nat) : Int) - 1).toNat = l.length := by
      rw [hl]; simp
    simp only [read_command_stdout, getline_at, hu, h, getline, hread, if_false, hlast]
    rw [hl, chomp_concat, getD_last_of_buffer, set_last_of_buffer]
    by_cases hx : x = NL
    · rw [if_pos hx, if_pos hx, cstr_append_nul, cstr_append_nul]
    · rw [if_neg hx, if_neg hx, cstr_append_nul]

/-- With a null line pointer `read_command_stdout` has a result, and the
pointer it returns does not depend on the log. -/
theorem read_command_stdout_defined (env : Env) (command : String)
    (hu : (env.stack command).line = LinePtr.null) :
    ∃ v, ∀ log, read_command_stdout env command log = some (v, log ++ [command]) := by
  cases hs : env.popen_stdout command with
  | nil => exact ⟨none, fun log => read_command_stdout_nil env command log hu hs⟩
  | cons b bs => exact ⟨_, fun log => read_command_stdout_cons env command log hu b bs hs⟩

/-- Outside a repository, or with null line pointers, `get_git_repo_name`
has a result. -/
theorem get_git_repo_name_defined (env : Env)
    (h : env.system_status cmd_inside_work_tree = 0 →
      (env.stack cmd_repo_name).line = LinePtr.null) :
    ∃ v, (env.system_status cmd_inside_work_tree ≠ 0 → v = none) ∧
      ∀ log, ∃ log1, get_git_repo_name env log = some (v, log1) := by
  by_cases hs : env.system_status cmd_inside_work_tree = 0
  · obtain ⟨v, hv⟩ := read_command_stdout_defined env cmd_repo_name (h hs)
    refine ⟨v, fun hn => absurd hs hn,
      fun log => ⟨(log ++ [cmd_inside_work_tree]) ++ [cmd_repo_name], ?_⟩⟩
    simp only [get_git_repo_name, not_git_repo, hs, git_repo_name, ne_eq, not_true_eq_false,
      if_false]
    exact hv _
  · exact ⟨none, fun _ => rfl,
      fun log => ⟨log ++ [cmd_inside_work_tree], by simp [get_git_repo_name, not_git_repo, hs]⟩⟩

/-- Outside a repository, or with null line pointers,
`get_git_branch_name` has a result. -/
theorem get_git_branch_name_defined (env : Env)
    (h : env.system_status cmd_inside_work_tree = 0 →
      (env.stack cmd_branch_name).line = LinePtr.null) :
    ∃ v, (env.system_status cmd_inside_work_tree ≠ 0 → v = none) ∧
      ∀ log, ∃ log1, get_git_branch_name env log = some (v, log1) := by
  by_cases hs : env.system_status cmd_inside_work_tree = 0
  · obtain ⟨v, hv⟩ := read_command_stdout_defined env cmd_branch_name (h hs)
    refine ⟨v, fun hn => absurd hs hn,
      fun log => ⟨(log ++ [cmd_inside_work_tree]) ++ [cmd_branch_name], ?_⟩⟩
    simp only [get_git_branch_name, not_git_repo, hs, git_branch_name, ne_eq,
      not_true_eq_false, if_false]
    exact hv _
  · exact ⟨none, fun _ => rfl,
      fun log => ⟨log ++ [cmd_inside_work_tree], by simp [get_git_branch_name, not_git_repo, hs]⟩⟩

/-- A run of `main` whose calls of `getline` are defined: the two header
lines, the banner, the confirmations, `Done.`; the notes file gets what is
stored for the accepted lines. -/
theorem main_spec (env : Env) (nullMarker stdin F out : List Nat) (log : List String)
    (h : env.system_status cmd_inside_work_tree = 0 →
      (env.stack cmd_repo_name).line = LinePtr.null ∧
      (env.stack cmd_branch_name).line = LinePtr.null) :
    ∃ repo branch log2 rest,
      (∀ lg, (get_git_repo_name env lg).map Prod.fst = some repo) ∧
      (∀ lg, (get_git_branch_name env lg).map Prod.fst = some branch) ∧
      (env.system_status cmd_inside_work_tree ≠ 0 → repo = none ∧ branch = none) ∧
      main env nullMarker ⟨stdin, F, out⟩ log =
        some ⟨0, ⟨rest, F ++ ((captured stdin).map stored).flatten,
            out ++ repoLine nullMarker repo ++ branchLine nullMarker branch ++
              afterBranch stdin⟩, log2⟩ := by
  obtain ⟨repo, hrn, hrepo⟩ := get_git_repo_name_defined env (fun hs => (h hs).1)
  obtain ⟨branch, hbn, hbranch⟩ := get_git_branch_name_defined env (fun hs => (h hs).2)
  obtain ⟨log1, h1⟩ := hrepo log
  obtain ⟨log2, h2⟩ := hbranch log1
  obtain ⟨rest, hr⟩ := read_stdin_spec stdin F
    (out ++ bytes "Repo: " ++ render nullMarker repo ++ bytes "\n"
      ++ bytes "Branch: " ++ render nullMarker branch ++ bytes "\n" ++ banner)
  refine ⟨repo, branch, log2, rest, ?_, ?_, fun hn => ⟨hrn hn, hbn hn⟩, ?_⟩
  · intro lg
    obtain ⟨l1, hl1⟩ := hrepo lg
    rw [hl1]; rfl
  · intro lg
    obtain ⟨l1, hl1⟩ := hbranch lg
    rw [hl1]; rfl
  · simp only [main, h1, h2, hr]
    simp [repoLine, branchLine, afterBranch, List.append_assoc]

/-! ## The claims -/

/-- C1: for every initial content `F` of the notes file and every standard
input without a NUL byte, `read_stdin` returns 0 and leaves the notes file
equal to `F` followed by the concatenation, in arrival order, of the input
lines read before the first line of length at most 1 (or before end of
input); each of those lines has length above 1, and `F` is kept as it was. -/
theorem read_stdin_appends_captured_lines (F stdin out : List Nat) (h : NUL ∉ stdin) :
    ∃ w, read_stdin ⟨stdin, F, out⟩ = some (0, w) ∧
      w.notes = F ++ (captured stdin).flatten ∧
      (∀ l ∈ captured stdin, 1 < l.length) ∧
      (∃ later, splitLines stdin = captured stdin ++ later ∧
        ∀ l, later.head? = some l → l.length ≤ 1) ∧
      F <+: w.notes := by
  obtain ⟨rest, hr⟩ := read_stdin_spec stdin F out
  refine ⟨_, hr, ?_, length_of_mem_captured stdin, splitLines_eq_captured_append stdin, ?_⟩
  · simp only [map_stored_captured stdin h]
  · exact List.prefix_append _ _

/-- Witness of C1 on the input `hello`, `world`, empty line. -/
theorem read_stdin_appends_captured_lines_witness :
    ∃ w, read_stdin ⟨bytes "hello\nworld\n\n", bytes "old\n", []⟩ = some (0, w) ∧
      w.notes = bytes "old\n" ++ (captured (bytes "hello\nworld\n\n")).flatten ∧
      (∀ l ∈ captured (bytes "hello\nworld\n\n"), 1 < l.length) ∧
      (∃ later, splitLines (bytes "hello\nworld\n\n") =
          captured (bytes "hello\nworld\n\n") ++ later ∧
        ∀ l, later.head? = some l → l.length ≤ 1) ∧
      bytes "old\n" <+: w.notes :=
  read_stdin_appends_captured_lines (bytes "old\n") (bytes "hello\nworld\n\n") [] (by decide)

/-- C2: for every standard input, the input is the accepted lines followed
by a rest that is empty or starts with a line of length at most 1; the run
stops there, and the notes file, the output and the return value 0 are those
of a run on the input cut off just before that line: nothing of that line or
of what follows it is stored or echoed. -/
theorem short_line_ends_capture (stdin F out : List Nat) :
    ∃ rest w1 w2,
      stdin = (captured stdin).flatten ++ rest ∧ (getline rest).read ≤ 1 ∧
      (∀ l ∈ captured stdin, 1 < l.length) ∧
      splitLines (captured stdin).flatten = captured stdin ∧
      read_stdin ⟨stdin, F, out⟩ = some (0, w1) ∧
      read_stdin ⟨(captured stdin).flatten, F, out⟩ = some (0, w2) ∧
      w1.notes = w2.notes ∧ w1.stdout = w2.stdout ∧
      w1.notes = F ++ ((captured stdin).map stored).flatten ∧
      w1.stdout = out ++ ((captured stdin).map confirmation).flatten := by
  obtain ⟨rest, h1, h2⟩ := captured_append_rest stdin.length stdin (Nat.le_refl _)
  obtain ⟨r1, hr1⟩ := read_stdin_spec stdin F out
  obtain ⟨r2, hr2⟩ := read_stdin_spec (captured stdin).flatten F out
  rw [captured_flatten_captured] at hr2
  exact ⟨rest, _, _, h1, h2, length_of_mem_captured stdin, splitLines_flatten_captured stdin,
    hr1, hr2, rfl, rfl, rfl, rfl⟩

/-- C3, as stated, fails: the line `a`, NUL, `b`, newline is accepted
(`getline` reports 4 bytes), yet only `a` is stored and echoed. -/
theorem nul_line_is_truncated :
    (getline [97, 0, 98, 10]).read = 4 ∧
    captured [97, 0, 98, 10] = [[97, 0, 98, 10]] ∧
    read_stdin ⟨[97, 0, 98, 10], [], []⟩ = some (0, ⟨[], [97], bytes "Took note: a"⟩) ∧
    ([97] : List Nat) ≠ [97, 0, 98, 10] := by
  decide

/-- C3, amended: for every accepted line the bytes appended to the notes
file are the bytes of the line before its first NUL byte, the whole line with
its terminator when it has no NUL byte, and the confirmation is
`Took note: ` followed by exactly those same bytes. -/
theorem accepted_line_stored_as_c_string (stdin F out : List Nat) :
    ∃ w, read_stdin ⟨stdin, F, out⟩ = some (0, w) ∧
      w.notes = F ++ ((captured stdin).map stored).flatten ∧
      w.stdout = out ++
        ((captured stdin).map (fun l => bytes "Took note: " ++ stored l)).flatten ∧
      ∀ l ∈ captured stdin,
        stored l = l.takeWhile (fun b => b ≠ NUL) ∧ (NUL ∉ l → stored l = l) := by
  obtain ⟨rest, hr⟩ := read_stdin_spec stdin F out
  exact ⟨_, hr, rfl, rfl, fun l _ => ⟨rfl, cstr_eq_self l⟩⟩

/-- Witness of C3 amended, on a line with a NUL byte and a line without. -/
theorem accepted_line_stored_as_c_string_witness :
    ∃ w, read_stdin ⟨[97, 0, 98, 10, 99, 100, 10], [], []⟩ = some (0, w) ∧
      w.notes = [] ++ ((captured [97, 0, 98, 10, 99, 100, 10]).map stored).flatten ∧
      w.stdout = [] ++ ((captured [97, 0, 98, 10, 99, 100, 10]).map
        (fun l => bytes "Took note: " ++ stored l)).flatten ∧
      ∀ l ∈ captured [97, 0, 98, 10, 99, 100, 10],
        stored l = l.takeWhile (fun b => b ≠ NUL) ∧ (NUL ∉ l → stored l = l) :=
  accepted_line_stored_as_c_string [97, 0, 98, 10, 99, 100, 10] [] []

/-- C4, as stated, fails on the line count.  Two runs on the input `ab`,
newline, `cd` (two accepted lines, the second ended by end of input) leave
three lines in an empty file, not four; and two runs on `ab`, `cd` leave a
file that held `x` without a newline with four lines, three more than its
one. -/
theorem two_runs_do_not_always_add_four_lines :
    (captured (bytes "ab\ncd") = [bytes "ab\n", bytes "cd"] ∧
      read_stdin ⟨bytes "ab\ncd", [], []⟩ = some (0, ⟨[], bytes "ab\ncd", bytes "Took note: ab\nTook note: cd"⟩) ∧
      (read_stdin ⟨bytes "ab\ncd", bytes "ab\ncd", []⟩).map (fun r => r.2.notes) =
        some (bytes "ab\ncdab\ncd") ∧
      lineCount [] = 0 ∧ lineCount (bytes "ab\ncdab\ncd") = 3) ∧
    (captured (bytes "ab\ncd\n") = [bytes "ab\n", bytes "cd\n"] ∧
      (read_stdin ⟨bytes "ab\ncd\n", bytes "x", []⟩).map (fun r => r.2.notes) =
        some (bytes "xab\ncd\n") ∧
      (read_stdin ⟨bytes "ab\ncd\n", bytes "xab\ncd\n", []⟩).map (fun r => r.2.notes) =
        some (bytes "xab\ncd\nab\ncd\n") ∧
      lineCount (bytes "x") = 1 ∧ lineCount (bytes "xab\ncd\nab\ncd\n") = 4) := by
  decide

/-- C4, amended: two successive runs on inputs `A` and `B` leave the file
equal to `F` followed by what a run on `A` stores, followed by what a run on
`B` stores (with `A = B`, twice the same bytes): nothing is overwritten and no
duplicate is dropped.  What a run stores is the concatenation of its accepted
lines when none of them has a NUL byte; and when moreover `F` is empty or
ends with a newline and every accepted line of `A` ends with a newline, the
number of lines of the file grows by the number of accepted lines of `A` plus
that of `B`: by four with two accepted lines per run. -/
theorem two_runs_append_twice (F A B out : List Nat) :
    ∃ w1 w2, read_stdin ⟨A, F, out⟩ = some (0, w1) ∧
      read_stdin ⟨B, w1.notes, w1.stdout⟩ = some (0, w2) ∧
      w2.notes = F ++ ((captured A).map stored).flatten ++ ((captured B).map stored).flatten ∧
      ((∀ l ∈ captured A, NUL ∉ l) → (∀ l ∈ captured B, NUL ∉ l) →
        w2.notes = F ++ (captured A).flatten ++ (captured B).flatten ∧
        ((F = [] ∨ F.getLast? = some NL) → (∀ l ∈ captured A, l.getLast? = some NL) →
          lineCount w2.notes = lineCount F + (captured A).length + (captured B).length)) := by
  obtain ⟨r1, h1⟩ := read_stdin_spec A F out
  obtain ⟨r2, h2⟩ := read_stdin_spec B (F ++ ((captured A).map stored).flatten)
    (out ++ ((captured A).map confirmation).flatten)
  refine ⟨_, _, h1, h2, rfl, ?_⟩
  intro hA hB
  refine ⟨by simp only [map_stored_eq_self _ hA, map_stored_eq_self _ hB], ?_⟩
  intro hF hNL
  have e1 : splitLines (F ++ ((captured A).map stored).flatten) = splitLines F ++ captured A :=
    splitLines_after_run F A hF hA
  have hF1 : F ++ ((captured A).map stored).flatten = [] ∨
      (F ++ ((captured A).map stored).flatten).getLast? = some NL := by
    rw [map_stored_eq_self _ hA]
    exact ends_with_newline_append _ F hF hNL
  have e2 := splitLines_after_run (F ++ ((captured A).map stored).flatten) B hF1 hB
  simp only [lineCount]
  rw [e2, e1]
  simp only [List.length_append]

/-- Witness of C4 amended: the input `ab`, `cd`, twice, on a file that
holds one line. -/
theorem two_runs_append_twice_witness :
    ∃ w1 w2, read_stdin ⟨bytes "ab\ncd\n", bytes "x\n", []⟩ = some (0, w1) ∧
      read_stdin ⟨bytes "ab\ncd\n", w1.notes, w1.stdout⟩ = some (0, w2) ∧
      w2.notes = bytes "x\nab\ncd\nab\ncd\n" ∧
      lineCount w2.notes = lineCount (bytes "x\n") + 2 + 2 := by
  obtain ⟨w1, w2, h1, h2, h3, h4⟩ :=
    two_runs_append_twice (bytes "x\n") (bytes "ab\ncd\n") (bytes "ab\ncd\n") []
  have h5 := h4 (by decide) (by decide)
  refine ⟨w1, w2, h1, h2, ?_, ?_⟩
  · rw [h3]; decide
  · exact h5.2 (by decide) (by decide)

/-- C5, as stated, fails.  On a file that holds `x` without a newline the
one accepted line `ab` leaves the one line `xab`: the count does not grow
and `ab` is no line of the file.  On an empty file the accepted lines
`a`, NUL and `bc` are stored as the one line `abc`. -/
theorem captured_line_may_not_be_a_file_line :
    (captured (bytes "ab\n") = [bytes "ab\n"] ∧
      read_stdin ⟨bytes "ab\n", bytes "x", []⟩ =
        some (0, ⟨[], bytes "xab\n", bytes "Took note: ab\n"⟩) ∧
      lineCount (bytes "x") = 1 ∧ lineCount (bytes "xab\n") = 1 ∧
      bytes "ab\n" ∉ splitLines (bytes "xab\n")) ∧
    (captured [97, 0, 10, 98, 99, 10] = [[97, 0, 10], [98, 99, 10]] ∧
      (read_stdin ⟨[97, 0, 10, 98, 99, 10], [], []⟩).map (fun r => r.2.notes) =
        some (bytes "abc\n") ∧
      lineCount [] = 0 ∧ lineCount (bytes "abc\n") = 1) := by
  decide

/-- C5, amended: when the notes file is empty or ends with a newline and
no accepted line has a NUL byte, a run that accepts `n` lines makes the
number of lines of the file grow by exactly `n`, and the lines of the file
are its former lines followed by the accepted lines, each a line of its
own. -/
theorem captured_lines_are_file_lines (F stdin out : List Nat)
    (hF : F = [] ∨ F.getLast? = some NL) (h0 : ∀ l ∈ captured stdin, NUL ∉ l) :
    ∃ w, read_stdin ⟨stdin, F, out⟩ = some (0, w) ∧
      lineCount w.notes = lineCount F + (captured stdin).length ∧
      splitLines w.notes = splitLines F ++ captured stdin := by
  obtain ⟨r, hr⟩ := read_stdin_spec stdin F out
  have e := splitLines_after_run F stdin hF h0
  refine ⟨_, hr, ?_, e⟩
  simp only [lineCount]
  rw [e, List.length_append]

/-- Witness of C5 amended: two lines, the second ended by end of input,
on a file that holds one line. -/
theorem captured_lines_are_file_lines_witness :
    ∃ w, read_stdin ⟨bytes "ab\ncd", bytes "x\n", []⟩ = some (0, w) ∧
      lineCount w.notes = lineCount (bytes "x\n") + (captured (bytes "ab\ncd")).length ∧
      splitLines w.notes = splitLines (bytes "x\n") ++ captured (bytes "ab\ncd") :=
  captured_lines_are_file_lines (bytes "x\n") (bytes "ab\ncd") [] (by decide) (by decide)

/-- C6: when the inside-work-tree check exits with a non-zero status,
`get_git_repo_name` and `get_git_branch_name` return NULL and the one command
they run is the check, which is neither the repository-name query nor the
branch query; when the check exits with status 0, each returns what
`git_repo_name`, respectively `git_branch_name`, returns. -/
theorem get_git_names_guarded (env : Env) (log : List String) :
    (env.system_status cmd_inside_work_tree ≠ 0 →
      get_git_repo_name env log = some (none, log ++ [cmd_inside_work_tree]) ∧
      get_git_branch_name env log = some (none, log ++ [cmd_inside_work_tree])) ∧
    cmd_inside_work_tree ≠ cmd_repo_name ∧ cmd_inside_work_tree ≠ cmd_branch_name ∧
    (env.system_status cmd_inside_work_tree = 0 →
      get_git_repo_name env log = git_repo_name env (log ++ [cmd_inside_work_tree]) ∧
      get_git_branch_name env log = git_branch_name env (log ++ [cmd_inside_work_tree]) ∧
      (get_git_repo_name env log).map Prod.fst = (git_repo_name env log).map Prod.fst ∧
      (get_git_branch_name env log).map Prod.fst =
        (git_branch_name env log).map Prod.fst) := by
  refine ⟨?_, by decide, by decide, ?_⟩
  · intro h
    simp [get_git_repo_name, get_git_branch_name, not_git_repo, h]
  · intro h
    refine ⟨by simp [get_git_repo_name, not_git_repo, h],
      by simp [get_git_branch_name, not_git_repo, h], ?_, ?_⟩
    · simp only [get_git_repo_name, not_git_repo, h, git_repo_name, read_command_stdout]
      simp only [ne_eq, not_true_eq_false, if_false]
      cases getline_at (env.stack cmd_repo_name).line (env.stack cmd_repo_name).len
          (env.popen_stdout cmd_repo_name) with
      | none => rfl
      | some g => simp only []; split_ifs <;> rfl
    · simp only [get_git_branch_name, not_git_repo, h, git_branch_name, read_command_stdout]
      simp only [ne_eq, not_true_eq_false, if_false]
      cases getline_at (env.stack cmd_branch_name).line (env.stack cmd_branch_name).len
          (env.popen_stdout cmd_branch_name) with
      | none => rfl
      | some g => simp only []; split_ifs <;> rfl

/-- Witness of C6: outside any repository, and inside the repository
`/home/u/note` on branch `main`. -/
theorem get_git_names_guarded_witness :
    (get_git_repo_name (noRepoEnv ⟨LinePtr.wild, 120⟩) [] =
        some (none, [cmd_inside_work_tree]) ∧
      get_git_branch_name (noRepoEnv ⟨LinePtr.wild, 120⟩) [] =
        some (none, [cmd_inside_work_tree])) ∧
    (get_git_repo_name (repoEnv (bytes "/home/u/note") (bytes "main") ⟨LinePtr.null, 0⟩) [] =
        some (some (bytes "note"), [cmd_inside_work_tree, cmd_repo_name]) ∧
      get_git_branch_name (repoEnv (bytes "/home/u/note") (bytes "main") ⟨LinePtr.null, 0⟩) [] =
        some (some (bytes "main"), [cmd_inside_work_tree, cmd_branch_name])) := by
  refine ⟨(get_git_names_guarded (noRepoEnv ⟨LinePtr.wild, 120⟩) []).1 (by decide), ?_⟩
  have h := (get_git_names_guarded
    (repoEnv (bytes "/home/u/note") (bytes "main") ⟨LinePtr.null, 0⟩) []).2.2.2 rfl
  refine ⟨h.1.trans (by decide), h.2.1.trans (by decide)⟩

/-- C7, as stated, fails.  On the output `a`, NUL, `b`, newline the
first line less its newline is `a`, NUL, `b`, yet the string returned is `a`;
and when the uninitialised `line` holds a value that is no buffer, the call
of `getline` is undefined and nothing is returned. -/
theorem read_command_stdout_cuts_at_nul :
    (read_command_stdout ⟨fun _ => 0, fun _ => [97, 0, 98, 10], fun _ => ⟨LinePtr.null, 0⟩⟩
        "cmd" [] = some (some [97], ["cmd"]) ∧
      chomp (takeLine [97, 0, 98, 10]).1 = [97, 0, 98] ∧
      ([97] : List Nat) ≠ [97, 0, 98]) ∧
    read_command_stdout ⟨fun _ => 0, fun _ => bytes "main\n", fun _ => ⟨LinePtr.wild, 120⟩⟩
        "cmd" [] = none := by
  decide

/-- C7, amended: in a call whose `getline` finds a null line pointer,
`read_command_stdout` returns NULL exactly when the command's output `s` is
empty.  Otherwise it returns the first line of `s` without its terminating
newline, cut at its first NUL byte: a string with no newline, the empty
string when the first line is a bare newline, and, when the first line has no
NUL byte, exactly that line less its one trailing newline. -/
theorem read_command_stdout_first_line (env : Env) (command : String) (log : List String)
    (hu : (env.stack command).line = LinePtr.null) :
    ∃ r, read_command_stdout env command log = some (r, log ++ [command]) ∧
      (r = none ↔ env.popen_stdout command = []) ∧
      (∀ v, r = some v → NL ∉ v) ∧
      (env.popen_stdout command ≠ [] →
        r = some ((chomp (takeLine (env.popen_stdout command)).1).takeWhile
          (fun b => b ≠ NUL))) ∧
      (∀ t, env.popen_stdout command = NL :: t → r = some []) ∧
      (NUL ∉ (takeLine (env.popen_stdout command)).1 → env.popen_stdout command ≠ [] →
        r = some (chomp (takeLine (env.popen_stdout command)).1) ∧
        ((takeLine (env.popen_stdout command)).1 =
            chomp (takeLine (env.popen_stdout command)).1 ++ [NL] ∨
          ((takeLine (env.popen_stdout command)).1 =
              chomp (takeLine (env.popen_stdout command)).1 ∧
            (takeLine (env.popen_stdout command)).2 = []))) := by
  cases hs : env.popen_stdout command with
  | nil =>
    refine ⟨none, read_command_stdout_nil env command log hu hs, ?_⟩
    simp
  | cons b bs =>
    refine ⟨_, read_command_stdout_cons env command log hu b bs hs,
      by simp, ?_, fun _ => rfl, ?_, ?_⟩
    · intro v hv
      simp only [Option.some.injEq] at hv
      subst hv
      intro h
      exact not_newline_mem_chomp_takeLine b bs (List.takeWhile_subset _ h)
    · intro t ht
      simp only [List.cons.injEq] at ht
      obtain ⟨rfl, rfl⟩ := ht
      simp [takeLine, chomp, cstr]
    · intro hmem _
      rcases takeLine_shape b bs with ⟨l, hl, _⟩ | ⟨hn, hr⟩
      · have hc : chomp (takeLine (b :: bs)).1 = l := by
          rw [hl, chomp_concat, if_pos rfl]
        refine ⟨?_, Or.inl (by rw [hc]; exact hl)⟩
        rw [hc, cstr_eq_self]
        intro hm
        exact hmem (by rw [hl]; exact List.mem_append_left _ hm)
      · have hc : chomp (takeLine (b :: bs)).1 = (takeLine (b :: bs)).1 := by
          unfold chomp
          rw [if_neg]
          intro hlast
          exact hn (List.mem_of_getLast?_eq_some hlast)
        refine ⟨?_, Or.inr ⟨hc.symm, hr⟩⟩
        rw [hc, cstr_eq_self _ hmem]

/-- Witness of C7 amended: a command that prints two lines. -/
theorem read_command_stdout_first_line_witness :
    ∃ r, read_command_stdout
        ⟨fun _ => 0, fun _ => bytes "main\nother\n", fun _ => ⟨LinePtr.null, 0⟩⟩ "cmd" [] =
          some (r, ["cmd"]) ∧ r = some (bytes "main") := by
  obtain ⟨r, h1, _, _, _, _, h6⟩ := read_command_stdout_first_line
    ⟨fun _ => 0, fun _ => bytes "main\nother\n", fun _ => ⟨LinePtr.null, 0⟩⟩ "cmd" [] rfl
  exact ⟨r, h1, (h6 (by decide) (by decide)).1.trans (by decide)⟩

/-- C8, as stated, fails.  On the accepted line `a`, NUL, `b`, newline
the confirmation printed is `Took note: a`, not `Took note: ` followed by the
line; and inside a repository, when the uninitialised `line` of
`read_command_stdout` holds a value that is no buffer, the call of `getline`
is undefined and `main` returns nothing. -/
theorem main_confirmation_cut_at_nul :
    (captured [97, 0, 98, 10] = [[97, 0, 98, 10]] ∧
      (main (noRepoEnv ⟨LinePtr.null, 0⟩) (bytes "(null)") ⟨[97, 0, 98, 10], [], []⟩ []).map
          (fun r => (r.ret, r.world.stdout, r.world.notes)) =
        some (0, bytes "Repo: (null)\nBranch: (null)\nWrite your notes below. Each line will be saved as a separate note. An empty line will exit.\nTook note: aDone.\n",
          [97])) ∧
    main (repoEnv (bytes "/home/u/note") (bytes "main") ⟨LinePtr.wild, 120⟩) (bytes "(null)")
        ⟨bytes "hello\n\n", [], []⟩ [] = none := by
  decide

/-- C8, amended: in a run outside a repository, or one where the calls of
`getline` in `read_command_stdout` find a null line pointer, `main` returns 0
and its standard output is the line `Repo: <repo>`, the line
`Branch: <branch>`, the usage banner, one confirmation for each accepted line,
`Took note: ` followed by the bytes stored for that line (the line up to its
first NUL byte, the whole line when it has none), in the order in which the
lines are appended to the notes file, and last `Done.` with a newline.  On an
empty standard input the notes file is unchanged, no confirmation is printed
and `Done.` is still printed. -/
theorem main_output (env : Env) (nullMarker stdin F : List Nat) (log : List String)
    (h : env.system_status cmd_inside_work_tree = 0 →
      (env.stack cmd_repo_name).line = LinePtr.null ∧
      (env.stack cmd_branch_name).line = LinePtr.null) :
    ∃ repo branch r,
      (get_git_repo_name env log).map Prod.fst = some repo ∧
      (get_git_branch_name env log).map Prod.fst = some branch ∧
      main env nullMarker ⟨stdin, F, []⟩ log = some r ∧ r.ret = 0 ∧
      r.world.stdout =
        bytes "Repo: " ++ render nullMarker repo ++ bytes "\n" ++
        (bytes "Branch: " ++ render nullMarker branch ++ bytes "\n") ++
        bytes "Write your notes below. Each line will be saved as a separate note. An empty line will exit.\n" ++
        ((captured stdin).map (fun l => bytes "Took note: " ++ stored l)).flatten ++
        bytes "Done.\n" ∧
      r.world.notes = F ++ ((captured stdin).map stored).flatten ∧
      (∀ l ∈ captured stdin,
        stored l = l.takeWhile (fun b => b ≠ NUL) ∧ (NUL ∉ l → stored l = l)) ∧
      (stdin = [] → r.world.notes = F ∧
        r.world.stdout =
          bytes "Repo: " ++ render nullMarker repo ++ bytes "\n" ++
          (bytes "Branch: " ++ render nullMarker branch ++ bytes "\n") ++
          bytes "Write your notes below. Each line will be saved as a separate note. An empty line will exit.\n" ++
          bytes "Done.\n") := by
  obtain ⟨repo, branch, log2, rest, h1, h2, _, hr⟩ := main_spec env nullMarker stdin F [] log h
  refine ⟨repo, branch, _, h1 log, h2 log, hr, rfl, ?_, rfl,
    fun l _ => ⟨rfl, cstr_eq_self l⟩, ?_⟩
  · simp only [repoLine, branchLine, afterBranch, List.nil_append, List.append_assoc]
    rfl
  · rintro rfl
    simp only [repoLine, branchLine, afterBranch, captured_nil, List.nil_append,
      List.append_assoc, List.map_nil, List.flatten_nil, List.append_nil]
    exact ⟨trivial, rfl⟩

/-- Witness of C8 amended: the input `hello`, `world`, empty line, in the
repository `/home/u/note` on branch `main`. -/
theorem main_output_witness :
    ∃ r, main (repoEnv (bytes "/home/u/note") (bytes "main") ⟨LinePtr.null, 0⟩)
        (bytes "(null)") ⟨bytes "hello\nworld\n\n", [], []⟩ [] = some r ∧ r.ret = 0 ∧
      r.world.stdout = bytes "Repo: note\nBranch: main\nWrite your notes below. Each line will be saved as a separate note. An empty line will exit.\nTook note: hello\nTook note: world\nDone.\n" ∧
      r.world.notes = bytes "hello\nworld\n" := by
  obtain ⟨repo, branch, r, hrepo, hbranch, h1, h2, h3, h4, _⟩ :=
    main_output (repoEnv (bytes "/home/u/note") (bytes "main") ⟨LinePtr.null, 0⟩)
      (bytes "(null)") (bytes "hello\nworld\n\n") [] [] (fun _ => ⟨rfl, rfl⟩)
  have e1 : repo = some (bytes "note") := by
    have : some repo = some (some (bytes "note")) := hrepo.symm.trans (by decide)
    exact Option.some.inj this
  have e2 : branch = some (bytes "main") := by
    have : some branch = some (some (bytes "main")) := hbranch.symm.trans (by decide)
    exact Option.some.inj this
  subst e1 e2
  exact ⟨r, h1, h2, h3.trans (by decide), h4.trans (by decide)⟩

/-- C9 on a run inside the repository `/home/u/note` where the
uninitialised `line` of `read_command_stdout` holds a value that is no buffer:
the call of `getline` is undefined and `main` has no result, so nothing is
appended to the notes file, while the run outside any repository, on the same
input and the same notes file, returns 0, prints both header lines with the
marker and appends `hello`.  With a null `line` the run inside the repository
appends the same bytes and prints the same output after the `Branch:` line. -/
theorem main_in_repo_undefined_on_wild_line :
    (main (noRepoEnv ⟨LinePtr.wild, 120⟩) (bytes "(null)")
        ⟨bytes "hello\n\n", bytes "old\n", []⟩ []).map
        (fun r => (r.ret, r.world.stdout, r.world.notes)) =
      some (0, bytes "Repo: (null)\nBranch: (null)\nWrite your notes below. Each line will be saved as a separate note. An empty line will exit.\nTook note: hello\nDone.\n",
        bytes "old\nhello\n") ∧
    main (repoEnv (bytes "/home/u/note") (bytes "main") ⟨LinePtr.wild, 120⟩) (bytes "(null)")
        ⟨bytes "hello\n\n", bytes "old\n", []⟩ [] = none ∧
    (main (repoEnv (bytes "/home/u/note") (bytes "main") ⟨LinePtr.null, 0⟩) (bytes "(null)")
        ⟨bytes "hello\n\n", bytes "old\n", []⟩ []).map
        (fun r => (r.ret, r.world.stdout, r.world.notes)) =
      some (0, bytes "Repo: note\nBranch: main\nWrite your notes below. Each line will be saved as a separate note. An empty line will exit.\nTook note: hello\nDone.\n",
        bytes "old\nhello\n") := by
  decide

/-- C10 on a top-level directory `/home/u/my repo`: the shell splits the
path at the blank, `basename` takes `repo` for a suffix to remove, and
`git_repo_name` returns `my`, not the final segment `my repo`.  With three
words `basename` prints nothing and `git_repo_name` returns NULL.  A path
without a blank gives its final segment. -/
theorem git_repo_name_splits_path_at_blank :
    (git_repo_name (repoEnv (bytes "/home/u/my repo") (bytes "main") ⟨LinePtr.null, 0⟩)
        []).map Prod.fst = some (some (bytes "my")) ∧
    finalSegment (bytes "/home/u/my repo") = bytes "my repo" ∧
    (git_repo_name (repoEnv (bytes "/home/u/my own repo") (bytes "main") ⟨LinePtr.null, 0⟩)
        []).map Prod.fst = some none ∧
    (git_repo_name (repoEnv (bytes "/home/u/note") (bytes "main") ⟨LinePtr.null, 0⟩)
        []).map Prod.fst = some (some (bytes "note")) := by
  decide

end Note
